import Mathlib

/-
Verification of the metrics-aggregation core of the `fastest-races` repository.

The embedding models the pure computational content of
`src/fastest_races/_calculations.py` and `src/fastest_races/_times.py`:
text is `List Char` (Python `str`, compared by code point), times are `Nat`
(seconds are non-negative integers), a scraped table row is a record of its
recognized string fields, and a pandas DataFrame of normalized results is a
`List NormRow`.  `math.floor(x / 60)` and `math.ceil(x / 60)` on the
non-negative integer seconds are embedded as exact integer floor/ceiling
division.  Date values are carried as opaque strings (their reparsing and
reformatting does not affect any property below, since dates act only as an
exact grouping key).  Fallible steps return `Except`.
-/

namespace FastestRaces

/-- MINUTE_SECONDS from `fastest_races._vars` (60, as pinned by `main.py`). -/
def MINUTE_SECONDS : Nat := 60

/-- HOUR_SECONDS from `fastest_races._vars` (3600, as pinned by `main.py`). -/
def HOUR_SECONDS : Nat := 3600

/-- Numeric value of an ASCII digit character. -/
def digitVal (c : Char) : Nat := c.toNat - 48

/-- Value of a digit string, as computed by Python `int(part)` on a string of
ASCII digits. -/
def digitsVal (l : List Char) : Nat := l.foldl (fun acc c => acc * 10 + digitVal c) 0

/-- The single character Python prints for a decimal digit. -/
def digitChar : Nat → Char
  | 0 => '0'
  | 1 => '1'
  | 2 => '2'
  | 3 => '3'
  | 4 => '4'
  | 5 => '5'
  | 6 => '6'
  | 7 => '7'
  | 8 => '8'
  | 9 => '9'
  | _ => '0'

/-- Fueled decimal printer (the fuel argument only makes the recursion
structural; it is always called with enough fuel). -/
def natDigitsAux : Nat → Nat → List Char
  | 0, n => [digitChar (n % 10)]
  | fuel + 1, n =>
    if n < 10 then [digitChar n]
    else natDigitsAux fuel (n / 10) ++ [digitChar (n % 10)]

/-- Decimal digits of `n`, as Python `f-string` `d` formatting prints it. -/
def natDigits (n : Nat) : List Char := natDigitsAux n n

/-- Python `f-string` `02d` formatting: decimal digits left-padded with `0`
to width two. -/
def pad2 (n : Nat) : List Char := if n < 10 then '0' :: natDigits n else natDigits n

/-- Embedding of `format_seconds_to_display` from `fastest_races._times`: `MM:SS` below one
hour, else `H:MM:SS` with un-padded hours. -/
def format_seconds_to_display (total_seconds : Nat) : List Char :=
  if total_seconds < HOUR_SECONDS then
    pad2 (total_seconds / MINUTE_SECONDS) ++ ':' :: pad2 (total_seconds % MINUTE_SECONDS)
  else
    natDigits (total_seconds / HOUR_SECONDS) ++
      ':' :: pad2 (total_seconds % HOUR_SECONDS / MINUTE_SECONDS) ++
        ':' :: pad2 (total_seconds % MINUTE_SECONDS)

/-- Embedding of `format_threshold_minutes_to_display` from `fastest_races._times`:
column label for a minute threshold. -/
def format_threshold_minutes_to_display (threshold_min : Nat) : List Char :=
  if threshold_min ≥ MINUTE_SECONDS then
    '<' :: ' ' :: natDigits (threshold_min / MINUTE_SECONDS) ++
      ':' :: pad2 (threshold_min % MINUTE_SECONDS)
  else
    '<' :: ' ' :: natDigits threshold_min

/-- Python `str.split(":")`: split on every colon, empty parts kept, always at
least one part. -/
def splitCols : List Char → List (List Char)
  | [] => [[]]
  | c :: cs =>
    if c = ':' then [] :: splitCols cs
    else
      match splitCols cs with
      | [] => [[c]]
      | p :: ps => (c :: p) :: ps

/-- The anchored regular expression used to filter the `Perf` column in
`get_ranking_data`: one or more digits, a colon, exactly two digits, then
optionally a colon and exactly two more digits.  Since a digit is never a
colon, the greedy first group must consume exactly the maximal leading digit
run, so the regex unrolls to this deterministic matcher. -/
def matchTimePattern (cs : List Char) : Bool :=
  let ds := cs.takeWhile Char.isDigit
  let rest := cs.dropWhile Char.isDigit
  (!ds.isEmpty) &&
    match rest with
    | c0 :: a :: b :: rest2 =>
      (c0 = ':') && a.isDigit && b.isDigit &&
        (match rest2 with
         | [] => true
         | c1 :: c :: d :: rest3 => (c1 = ':') && c.isDigit && d.isDigit && rest3.isEmpty
         | _ => false)
    | _ => false

/-- The `Perf_seconds` lambda in `get_ranking_data`:
`sum(int(part) * (MINUTE_SECONDS**i) for i, part in enumerate(reversed(x.split(":"))))`. -/
def perf_seconds (cs : List Char) : Nat :=
  (((splitCols cs).reverse.enum).map (fun ip => digitsVal ip.2 * MINUTE_SECONDS ^ ip.1)).sum

/-- The time parser as the spec names it: the regex gate composed with the
seconds computation, `none` meaning the row is dropped. -/
def parse_time (s : String) : Option Nat :=
  if matchTimePattern s.data then some (perf_seconds s.data) else none

/-- Claim-side shape check: 2 or 3 colon-separated groups, the first non-empty
and all digits, the others exactly two digits.  Stated over `str.split(":")`
output for comparison against the regex matcher. -/
def specTimeShape (cs : List Char) : Bool :=
  match splitCols cs with
  | [a, b] =>
    (!a.isEmpty) && a.all Char.isDigit && (b.length == 2) && b.all Char.isDigit
  | [a, b, c] =>
    (!a.isEmpty) && a.all Char.isDigit && (b.length == 2) && b.all Char.isDigit &&
      (c.length == 2) && c.all Char.isDigit
  | _ => false

/-- One scraped table row, restricted to the fields the core reads. -/
structure RawRow where
  venue : String
  perf : String
  date : String
  deriving DecidableEq, Repr

/-- One normalized result record (one row of the cleaned DataFrame). -/
structure NormRow where
  date : String
  venue : String
  country : String
  perfSeconds : Nat
  deriving DecidableEq, Repr

/-- Python `str.strip()`: drop surrounding whitespace. -/
def stripChars (l : List Char) : List Char :=
  ((l.dropWhile Char.isWhitespace).reverse.dropWhile Char.isWhitespace).reverse

/-- The venue/country split in `get_ranking_data`: split the venue on the
first comma; the right part (stripped) is the country, defaulting to "UK"
when there is no comma.  The left part is not stripped, as in the source. -/
def splitVenueCountry (v : String) : String × String :=
  let pre := v.data.takeWhile (fun c => c ≠ ',')
  let post := v.data.dropWhile (fun c => c ≠ ',')
  match post with
  | [] => (⟨pre⟩, "UK")
  | _ :: rest => (⟨pre⟩, ⟨stripChars rest⟩)

/-- Field-wise normalization of one raw row that survived the regex filter. -/
def normalizeRow (r : RawRow) : NormRow :=
  { date := r.date
    venue := (splitVenueCountry r.venue).1
    country := (splitVenueCountry r.venue).2
    perfSeconds := perf_seconds r.perf.data }

/-- Three-way comparison on `Nat`. -/
def cmpNat (a b : Nat) : Ordering :=
  if a < b then Ordering.lt else if b < a then Ordering.gt else Ordering.eq

/-- Code-point lexicographic comparison of two strings, as Python compares
`str` values. -/
def cmpLexChar : List Char → List Char → Ordering
  | [], [] => Ordering.eq
  | [], _ :: _ => Ordering.lt
  | _ :: _, [] => Ordering.gt
  | a :: as, b :: bs =>
    match cmpNat a.toNat b.toNat with
    | Ordering.eq => cmpLexChar as bs
    | o => o

/-- Row order used by `sort_values("Perf")` in `get_ranking_data`. -/
def perfLe (a b : RawRow) : Prop := cmpLexChar a.perf.data b.perf.data ≠ Ordering.gt

instance : DecidableRel perfLe := fun a b => by unfold perfLe; infer_instance

/-- Embedding of `get_ranking_data` restricted to its pure, post-scrape cleaning: filter to
rows whose `Perf` matches the time regex, return an empty frame when none
survive, sort by the `Perf` string, split venue/country, compute
`Perf_seconds`, and fail the whole batch when the `Date` column is absent
from the schema.  The boolean argument models whether the scraped schema has
a `Date` column at all. -/
def get_ranking_data (hasDateColumn : Bool) (rows : List RawRow) :
    Except String (List NormRow) :=
  let timed := rows.filter (fun r => matchTimePattern r.perf.data)
  if timed.isEmpty then Except.ok []
  else
    let sortedRaw := List.insertionSort perfLe timed
    let normalized := sortedRaw.map normalizeRow
    if hasDateColumn then Except.ok normalized
    else
      Except.error
        "The Date column was not found after data processing. Cannot group results."

/-- Minimum of a series of `Nat`, matching pandas `.min()` on a non-empty
series (the empty default is never consulted on the paths below). -/
def listMin : List Nat → Nat
  | [] => 0
  | x :: xs => xs.foldl Nat.min x

/-- Maximum of a series of `Nat`, matching pandas `.max()` on a non-empty
series. -/
def listMax : List Nat → Nat
  | [] => 0
  | x :: xs => xs.foldl Nat.max x

/-- Exact ceiling division, the value of `math.ceil(a / b)` on non-negative
integers. -/
def ceilDiv (a b : Nat) : Nat := (a + b - 1) / b

/-- The value `df["Perf_seconds"].min()` in `calculate_performance_metrics`. -/
def globalMinSeconds (df : List NormRow) : Nat := listMin (df.map NormRow.perfSeconds)

/-- The value `df["Perf_seconds"].max()` in `calculate_performance_metrics`. -/
def globalMaxSeconds (df : List NormRow) : Nat := listMax (df.map NormRow.perfSeconds)

/-- The value `start_minute_threshold = math.floor(global_min_seconds / MINUTE_SECONDS) + 1`. -/
def startMinuteThreshold (df : List NormRow) : Nat :=
  globalMinSeconds df / MINUTE_SECONDS + 1

/-- The value `end_minute_threshold`, after the clamp
`max(start_minute_threshold, math.ceil(global_max_seconds / MINUTE_SECONDS))`. -/
def endMinuteThreshold (df : List NormRow) : Nat :=
  max (startMinuteThreshold df) (ceilDiv (globalMaxSeconds df) MINUTE_SECONDS)

/-- The list `list(range(start_minute_threshold, end_minute_threshold + 1))`. -/
def thresholdRangeList (df : List NormRow) : List Nat :=
  List.range' (startMinuteThreshold df) (endMinuteThreshold df + 1 - startMinuteThreshold df)

/-- The list `dynamic_threshold_minutes`, with the `or [math.ceil(...)]` fallback the
source applies when the range is empty. -/
def dynamicThresholdMinutes (df : List NormRow) : List Nat :=
  let r := thresholdRangeList df
  if r.isEmpty then [ceilDiv (globalMinSeconds df) MINUTE_SECONDS] else r

/-- The `groupby(["Date", "Venue", "Country"])` key of a row. -/
def keyOf (r : NormRow) : String × String × String := (r.date, r.venue, r.country)

/-- The distinct group keys of a batch. -/
def groupKeys (df : List NormRow) : List (String × String × String) :=
  (df.map keyOf).dedup

/-- The members of one group. -/
def membersOf (df : List NormRow) (k : String × String × String) : List NormRow :=
  df.filter (fun r => keyOf r = k)

/-- The count `(group["Perf_seconds"] < threshold_min * MINUTE_SECONDS).sum()`. -/
def countUnder (g : List NormRow) (t : Nat) : Nat :=
  g.countP (fun r => r.perfSeconds < t * MINUTE_SECONDS)

/-- One aggregated row: the group key, the per-threshold counts in ascending
threshold order, and the minimum `Perf_seconds` of the group. -/
structure AggRow where
  date : String
  venue : String
  country : String
  counts : List Nat
  fastest : Nat
  deriving DecidableEq, Repr

/-- Embedding of `_aggregate_dynamic_thresholds` applied to one group. -/
def aggRowOf (ths : List Nat) (df : List NormRow) (k : String × String × String) :
    AggRow :=
  { date := k.1
    venue := k.2.1
    country := k.2.2
    counts := ths.map (fun t => countUnder (membersOf df k) t)
    fastest := listMin ((membersOf df k).map NormRow.perfSeconds) }

/-- Embedding of `groupby(...).apply(_aggregate_dynamic_thresholds)`: one aggregated row
per distinct group key. -/
def aggRows (df : List NormRow) : List AggRow :=
  (groupKeys df).map (aggRowOf (dynamicThresholdMinutes df) df)

/-- Lexicographic comparison of the count columns in ascending threshold
order, each column descending, as `sort_values(ascending=[False, ...])`
orders them. -/
def cmpLexDescNat : List Nat → List Nat → Ordering
  | [], [] => Ordering.eq
  | [], _ :: _ => Ordering.lt
  | _ :: _, [] => Ordering.gt
  | a :: as, b :: bs =>
    match cmpNat b a with
    | Ordering.eq => cmpLexDescNat as bs
    | o => o

/-- The full multi-column sort key of `calculate_performance_metrics`: every
threshold count column descending, then the `Fastest` display string
ascending. -/
def rowCmp (a b : AggRow) : Ordering :=
  match cmpLexDescNat a.counts b.counts with
  | Ordering.eq =>
    cmpLexChar (format_seconds_to_display a.fastest) (format_seconds_to_display b.fastest)
  | o => o

/-- The non-strict row order induced by `rowCmp`. -/
def rowLe (a b : AggRow) : Prop := rowCmp a b ≠ Ordering.gt

instance : DecidableRel rowLe := fun a b => by unfold rowLe; infer_instance

/-- The aggregated rows in final presentation order. -/
def sortedAggRows (df : List NormRow) : List AggRow :=
  List.insertionSort rowLe (aggRows df)

/-- The presented table: a header row and the data rows as display strings. -/
structure ReportTable where
  header : List String
  rows : List (List String)
  deriving DecidableEq, Repr

/-- One aggregated row projected into display cells in final column order:
`Date, Venue, Country, Fastest`, then the counts in ascending threshold
order. -/
def displayCells (r : AggRow) : List String :=
  [r.date, r.venue, r.country, ⟨format_seconds_to_display r.fastest⟩] ++
    r.counts.map (fun c => (⟨natDigits c⟩ : String))

/-- Embedding of `calculate_performance_metrics`: empty input returns the explicit empty
frame with columns `Date, Venue, Country, Fastest`; otherwise aggregate,
sort, and lay out the columns as `Date, Venue, Country, Fastest`, then the
threshold labels in ascending threshold order (every column the source
builds is one of these, so the defensive residual-column append contributes
nothing). -/
def calculate_performance_metrics (df : List NormRow) : ReportTable :=
  if df.isEmpty then { header := ["Date", "Venue", "Country", "Fastest"], rows := [] }
  else
    { header :=
        ["Date", "Venue", "Country", "Fastest"] ++
          (dynamicThresholdMinutes df).map
            (fun m => (⟨format_threshold_minutes_to_display m⟩ : String))
      rows := (sortedAggRows df).map displayCells }

/-- Claim-side description of a contiguous inclusive integer range. -/
def closedRange (a b : Nat) : List Nat := List.range' a (b + 1 - a)

/-- The worked scenario batch from the spec, already normalized:
two Parliament Hill results (27:57 and 28:30) and one Battersea Park
result (31:10). -/
def sampleBatch : List NormRow :=
  [{ date := "01 Jan 24", venue := "Parliament Hill", country := "GB", perfSeconds := 1677 },
   { date := "01 Jan 24", venue := "Parliament Hill", country := "GB", perfSeconds := 1710 },
   { date := "02 Jan 24", venue := "Battersea Park", country := "UK", perfSeconds := 1870 }]

/-- A batch whose global maximum is an exact multiple of 60: times 58:20
(3500 s) and 1:00:00 (3600 s) at two different venues. -/
def boundaryBatch : List NormRow :=
  [{ date := "01 Jan 24", venue := "Alpha", country := "UK", perfSeconds := 3500 },
   { date := "01 Jan 24", venue := "Beta", country := "UK", perfSeconds := 3600 }]

/-- A degenerate batch where every result has the same time. -/
def constantBatch : List NormRow :=
  [{ date := "01 Jan 24", venue := "Alpha", country := "UK", perfSeconds := 3600 },
   { date := "01 Jan 24", venue := "Alpha", country := "UK", perfSeconds := 3600 }]

/-- A raw batch with no parseable time. -/
def unparseableRows : List RawRow :=
  [{ venue := "Somewhere", perf := "abc", date := "01 Jan 24" }]

/-- A raw batch with one parseable time. -/
def oneGoodRow : List RawRow :=
  [{ venue := "Parliament Hill, GB", perf := "27:57", date := "01 Jan 24" }]

/-! ### Decimal printing lemmas -/

theorem natDigitsAux_lt10 (fuel n : Nat) (h : n < 10) :
    natDigitsAux fuel n = [digitChar n] := by
  cases fuel with
  | zero => simp [natDigitsAux, Nat.mod_eq_of_lt h]
  | succ f => simp [natDigitsAux, h]

theorem natDigits_lt10 (n : Nat) (h : n < 10) : natDigits n = [digitChar n] :=
  natDigitsAux_lt10 n n h

theorem digitVal_digitChar (d : Nat) (h : d < 10) : digitVal (digitChar d) = d := by
  interval_cases d <;> decide

theorem digitChar_isDigit (d : Nat) (h : d < 10) : (digitChar d).isDigit = true := by
  interval_cases d <;> decide

theorem toNat_digitChar (d : Nat) (h : d < 10) : (digitChar d).toNat = 48 + d := by
  interval_cases d <;> decide

theorem digitsVal_append_singleton (l : List Char) (c : Char) :
    digitsVal (l ++ [c]) = digitsVal l * 10 + digitVal c := by
  simp [digitsVal, List.foldl_append]

theorem digitsVal_natDigitsAux (fuel : Nat) :
    ∀ n, n ≤ fuel → digitsVal (natDigitsAux fuel n) = n := by
  induction fuel with
  | zero =>
    intro n hn
    have h0 : n = 0 := Nat.le_zero.mp hn
    subst h0
    decide
  | succ f ih =>
    intro n hn
    by_cases h : n < 10
    · rw [natDigitsAux, if_pos h]
      simp [digitsVal, digitVal_digitChar n h]
    · rw [natDigitsAux, if_neg h]
      rw [digitsVal_append_singleton]
      have hdiv : n / 10 ≤ f := by
        have := Nat.div_lt_self (by omega : 0 < n) (by omega : 1 < 10)
        omega
      rw [ih (n / 10) hdiv, digitVal_digitChar (n % 10) (Nat.mod_lt n (by omega))]
      omega

theorem digitsVal_natDigits (n : Nat) : digitsVal (natDigits n) = n :=
  digitsVal_natDigitsAux n n (Nat.le_refl n)

theorem natDigitsAux_all_digit (fuel : Nat) :
    ∀ n c, c ∈ natDigitsAux fuel n → c.isDigit = true := by
  induction fuel with
  | zero =>
    intro n c hc
    simp [natDigitsAux] at hc
    subst hc
    exact digitChar_isDigit _ (Nat.mod_lt n (by omega))
  | succ f ih =>
    intro n c hc
    by_cases h : n < 10
    · rw [natDigitsAux, if_pos h] at hc
      simp at hc
      subst hc
      exact digitChar_isDigit n h
    · rw [natDigitsAux, if_neg h] at hc
      rcases List.mem_append.mp hc with h1 | h2
      · exact ih _ c h1
      · simp at h2
        subst h2
        exact digitChar_isDigit _ (Nat.mod_lt n (by omega))

theorem natDigits_all_digit (n : Nat) : ∀ c ∈ natDigits n, c.isDigit = true :=
  fun c hc => natDigitsAux_all_digit n n c hc

theorem natDigitsAux_ne_nil (fuel n : Nat) : natDigitsAux fuel n ≠ [] := by
  cases fuel with
  | zero => simp [natDigitsAux]
  | succ f =>
    rw [natDigitsAux]
    split
    · simp
    · simp

theorem natDigits_ne_nil (n : Nat) : natDigits n ≠ [] := natDigitsAux_ne_nil n n

theorem natDigits_two (n : Nat) (h1 : 10 ≤ n) (h2 : n < 100) :
    natDigits n = [digitChar (n / 10), digitChar (n % 10)] := by
  obtain ⟨m, rfl⟩ : ∃ m, n = m + 1 := ⟨n - 1, by omega⟩
  show natDigitsAux (m + 1) (m + 1) = _
  rw [natDigitsAux, if_neg (by omega)]
  rw [natDigitsAux_lt10 m ((m + 1) / 10) (by omega)]
  rfl

theorem pad2_eq (n : Nat) (h : n < 100) :
    pad2 n = [digitChar (n / 10), digitChar (n % 10)] := by
  by_cases h1 : n < 10
  · rw [pad2, if_pos h1, natDigits_lt10 n h1]
    have hd : n / 10 = 0 := Nat.div_eq_of_lt h1
    have hm : n % 10 = n := Nat.mod_eq_of_lt h1
    rw [hd, hm]
    rfl
  · rw [pad2, if_neg h1, natDigits_two n (by omega) h]

theorem digitsVal_pad2 (n : Nat) (h : n < 100) : digitsVal (pad2 n) = n := by
  rw [pad2_eq n h]
  show (0 * 10 + digitVal (digitChar (n / 10))) * 10 + digitVal (digitChar (n % 10)) = n
  rw [digitVal_digitChar _ (by omega), digitVal_digitChar _ (Nat.mod_lt n (by omega))]
  omega

theorem pad2_all_digit (n : Nat) (h : n < 100) : ∀ c ∈ pad2 n, c.isDigit = true := by
  rw [pad2_eq n h]
  intro c hc
  simp at hc
  rcases hc with rfl | rfl
  · exact digitChar_isDigit _ (by omega)
  · exact digitChar_isDigit _ (Nat.mod_lt n (by omega))

/-! ### `splitCols` structure lemmas -/

theorem splitCols_ne_nil (cs : List Char) : splitCols cs ≠ [] := by
  cases cs with
  | nil => simp [splitCols]
  | cons c cs =>
    rw [splitCols]
    split
    · simp
    · split
      · simp
      · simp

theorem splitCols_no_colon (l : List Char) (h : ∀ c ∈ l, c ≠ ':') :
    splitCols l = [l] := by
  induction l with
  | nil => rfl
  | cons c cs ih =>
    have hc : c ≠ ':' := h c (List.mem_cons_self c cs)
    rw [splitCols, if_neg hc, ih (fun x hx => h x (List.mem_cons_of_mem c hx))]

theorem splitCols_append_colon (l r : List Char) (h : ∀ c ∈ l, c ≠ ':') :
    splitCols (l ++ ':' :: r) = l :: splitCols r := by
  induction l with
  | nil => simp [splitCols]
  | cons c cs ih =>
    have hc : c ≠ ':' := h c (List.mem_cons_self c cs)
    rw [List.cons_append, splitCols, if_neg hc,
      ih (fun x hx => h x (List.mem_cons_of_mem c hx))]

theorem splitCols_structure :
    ∀ cs p ps, splitCols cs = p :: ps →
      (∀ c ∈ p, c ≠ ':') ∧
        ((ps = [] ∧ cs = p) ∨ ∃ r, cs = p ++ ':' :: r ∧ splitCols r = ps) := by
  intro cs
  induction cs with
  | nil =>
    intro p ps h
    rw [splitCols] at h
    injection h with h1 h2
    subst h1; subst h2
    exact ⟨by simp, Or.inl ⟨rfl, rfl⟩⟩
  | cons c cs ih =>
    intro p ps h
    by_cases hc : c = ':'
    · subst hc
      rw [splitCols, if_pos rfl] at h
      injection h with h1 h2
      subst h1; subst h2
      exact ⟨by simp, Or.inr ⟨cs, by simp, rfl⟩⟩
    · rw [splitCols, if_neg hc] at h
      rcases hsc : splitCols cs with _ | ⟨q, qs⟩
      · exact absurd hsc (splitCols_ne_nil cs)
      · rw [hsc] at h
        injection h with h1 h2
        subst h2
        obtain ⟨hq, hrest⟩ := ih q qs hsc
        subst h1
        refine ⟨?_, ?_⟩
        · intro x hx
          rcases List.mem_cons.mp hx with rfl | hx2
          · exact hc
          · exact hq x hx2
        · rcases hrest with ⟨rfl, rfl⟩ | ⟨r, rfl, hr⟩
          · exact Or.inl ⟨rfl, rfl⟩
          · exact Or.inr ⟨r, by simp, hr⟩

/-! ### takeWhile / dropWhile on a digit run -/

theorem takeWhile_digits_colon (l r : List Char) (hl : ∀ c ∈ l, c.isDigit = true) :
    (l ++ ':' :: r).takeWhile Char.isDigit = l ∧
      (l ++ ':' :: r).dropWhile Char.isDigit = ':' :: r := by
  induction l with
  | nil => exact ⟨by simp [List.takeWhile], by simp [List.dropWhile]⟩
  | cons c cs ih =>
    have hc : c.isDigit = true := hl c (List.mem_cons_self c cs)
    obtain ⟨ht, hd⟩ := ih (fun x hx => hl x (List.mem_cons_of_mem c hx))
    constructor
    · rw [List.cons_append, List.takeWhile_cons, if_pos hc, ht]
    · rw [List.cons_append, List.dropWhile_cons, if_pos hc, hd]

/-! ### The regex matcher agrees with the split-based shape description -/

theorem digit_ne_colon {c : Char} (h : c.isDigit = true) : c ≠ ':' := by
  intro hc
  subst hc
  exact absurd h (by decide)

theorem spec_of_match (cs : List Char) (h : matchTimePattern cs = true) :
    specTimeShape cs = true := by
  have hdig : ∀ c ∈ cs.takeWhile Char.isDigit, c.isDigit = true := fun c hc =>
    List.mem_takeWhile_imp hc
  have hcs : cs.takeWhile Char.isDigit ++ cs.dropWhile Char.isDigit = cs :=
    List.takeWhile_append_dropWhile Char.isDigit cs
  simp only [matchTimePattern] at h
  set t := cs.takeWhile Char.isDigit with ht
  rcases hr : cs.dropWhile Char.isDigit with _ | ⟨c0, _ | ⟨a, _ | ⟨b, rest2⟩⟩⟩ <;>
    rw [hr] at h <;> simp only [Bool.and_eq_true, decide_eq_true_eq] at h
  case nil => exact absurd h.2 (by simp)
  case cons.nil => exact absurd h.2 (by simp)
  case cons.cons.nil => exact absurd h.2 (by simp)
  obtain ⟨hne, ⟨⟨hc0, ha⟩, hb⟩, htail⟩ := h
  subst hc0
  have hnocolon : ∀ c ∈ t, c ≠ ':' := fun c hc => digit_ne_colon (hdig c hc)
  rw [hr] at hcs
  rcases rest2 with _ | ⟨c1, _ | ⟨c, _ | ⟨d, rest5⟩⟩⟩
  · -- two groups
    have hsplit : splitCols cs = [t, [a, b]] := by
      rw [← hcs]
      rw [show (t ++ [':', a, b] : List Char) = t ++ ':' :: [a, b] from rfl]
      rw [splitCols_append_colon _ _ hnocolon,
        splitCols_no_colon [a, b] (by
          intro x hx
          rcases List.mem_cons.mp hx with rfl | hx2
          · exact digit_ne_colon ha
          · simp at hx2
            subst hx2
            exact digit_ne_colon hb)]
    simp only [specTimeShape, hsplit]
    simp [List.all_eq_true, ha, hb, hne]
    exact hdig
  · exact absurd htail (by simp)
  · exact absurd htail (by simp)
  · -- three groups
    simp only [Bool.and_eq_true, decide_eq_true_eq, List.isEmpty_eq_true] at htail
    obtain ⟨⟨⟨hc1, hcd⟩, hdd⟩, hr5⟩ := htail
    subst hc1
    subst hr5
    have hsplit : splitCols cs = [t, [a, b], [c, d]] := by
      rw [← hcs]
      rw [show (t ++ [':', a, b, ':', c, d] : List Char) =
        t ++ ':' :: ([a, b] ++ ':' :: [c, d]) from rfl]
      rw [splitCols_append_colon _ _ hnocolon,
        splitCols_append_colon [a, b] _ (by
          intro x hx
          rcases List.mem_cons.mp hx with rfl | hx2
          · exact digit_ne_colon ha
          · simp at hx2
            subst hx2
            exact digit_ne_colon hb),
        splitCols_no_colon [c, d] (by
          intro x hx
          rcases List.mem_cons.mp hx with rfl | hx2
          · exact digit_ne_colon hcd
          · simp at hx2
            subst hx2
            exact digit_ne_colon hdd)]
    simp only [specTimeShape, hsplit]
    simp [List.all_eq_true, ha, hb, hcd, hdd, hne]
    exact hdig

theorem match_of_spec (cs : List Char) (h : specTimeShape cs = true) :
    matchTimePattern cs = true := by
  simp only [specTimeShape] at h
  rcases hsc : splitCols cs with _ | ⟨p, _ | ⟨q, _ | ⟨q2, _ | ⟨q3, qs3⟩⟩⟩⟩ <;> rw [hsc] at h
  · exact absurd hsc (splitCols_ne_nil cs)
  · simp at h
  · -- two groups
    simp only [Bool.and_eq_true, List.all_eq_true, beq_iff_eq] at h
    obtain ⟨⟨⟨hpne, hpd⟩, hql⟩, hqd⟩ := h
    obtain ⟨b1, b2, rfl⟩ := List.length_eq_two.mp hql
    have hb1 : b1.isDigit = true := hqd b1 (by simp)
    have hb2 : b2.isDigit = true := hqd b2 (by simp)
    obtain ⟨_, hstruct⟩ := splitCols_structure cs p [[b1, b2]] hsc
    rcases hstruct with ⟨habs, _⟩ | ⟨r1, hcs, hr1⟩
    · simp at habs
    · obtain ⟨_, hstruct2⟩ := splitCols_structure r1 [b1, b2] [] hr1
      rcases hstruct2 with ⟨_, rfl⟩ | ⟨r2, _, hr2⟩
      · obtain ⟨ht, hd⟩ := takeWhile_digits_colon p [b1, b2] hpd
        rw [hcs]
        simp only [matchTimePattern, ht, hd]
        simp [hb1, hb2, hpne]
      · exact absurd hr2 (splitCols_ne_nil r2)
  · -- three groups
    simp only [Bool.and_eq_true, List.all_eq_true, beq_iff_eq] at h
    obtain ⟨⟨⟨⟨⟨hpne, hpd⟩, hql⟩, hqd⟩, hq2l⟩, hq2d⟩ := h
    obtain ⟨b1, b2, rfl⟩ := List.length_eq_two.mp hql
    obtain ⟨c1, c2, rfl⟩ := List.length_eq_two.mp hq2l
    have hb1 : b1.isDigit = true := hqd b1 (by simp)
    have hb2 : b2.isDigit = true := hqd b2 (by simp)
    have hc1 : c1.isDigit = true := hq2d c1 (by simp)
    have hc2 : c2.isDigit = true := hq2d c2 (by simp)
    obtain ⟨_, hstruct⟩ := splitCols_structure cs p [[b1, b2], [c1, c2]] hsc
    rcases hstruct with ⟨habs, _⟩ | ⟨r1, hcs, hr1⟩
    · simp at habs
    · obtain ⟨_, hstruct2⟩ := splitCols_structure r1 [b1, b2] [[c1, c2]] hr1
      rcases hstruct2 with ⟨habs, _⟩ | ⟨r2, hre, hr2⟩
      · simp at habs
      · obtain ⟨_, hstruct3⟩ := splitCols_structure r2 [c1, c2] [] hr2
        rcases hstruct3 with ⟨_, rfl⟩ | ⟨r3, _, hr3⟩
        · obtain ⟨ht, hd⟩ :=
            takeWhile_digits_colon p ([b1, b2] ++ ':' :: [c1, c2]) hpd
          rw [hcs, hre]
          simp only [List.cons_append, List.nil_append] at ht hd ⊢
          simp only [matchTimePattern, ht, hd]
          simp [hb1, hb2, hc1, hc2, hpne]
        · exact absurd hr3 (splitCols_ne_nil r3)
  · simp at h

theorem matchTimePattern_eq_specTimeShape (cs : List Char) :
    matchTimePattern cs = specTimeShape cs := by
  cases hs : specTimeShape cs
  · cases hm : matchTimePattern cs
    · rfl
    · rw [spec_of_match cs hm] at hs
      exact absurd hs (by simp)
  · exact match_of_spec cs hs

/-! ### Value of the seconds computation on 2- and 3-group splits -/

theorem perf_seconds_two (cs a b : List Char) (h : splitCols cs = [a, b]) :
    perf_seconds cs = digitsVal a * 60 + digitsVal b := by
  simp [perf_seconds, h, MINUTE_SECONDS, List.enum, List.enumFrom]
  omega

theorem perf_seconds_three (cs a b c : List Char) (h : splitCols cs = [a, b, c]) :
    perf_seconds cs = digitsVal a * 3600 + digitsVal b * 60 + digitsVal c := by
  simp [perf_seconds, h, MINUTE_SECONDS, List.enum, List.enumFrom, pow_succ]
  omega

/-! ### The display format round-trips through the parser -/

theorem pad2_length (n : Nat) (h : n < 100) : (pad2 n).length = 2 := by
  rw [pad2_eq n h]
  rfl

theorem pad2_ne_nil (n : Nat) (h : n < 100) : pad2 n ≠ [] := by
  rw [pad2_eq n h]
  simp

theorem format_lt_hour (n : Nat) (h : n < 3600) :
    format_seconds_to_display n = pad2 (n / 60) ++ ':' :: pad2 (n % 60) := by
  simp [format_seconds_to_display, HOUR_SECONDS, MINUTE_SECONDS, h]

theorem format_ge_hour (n : Nat) (h : 3600 ≤ n) :
    format_seconds_to_display n =
      natDigits (n / 3600) ++ ':' :: (pad2 (n % 3600 / 60) ++ ':' :: pad2 (n % 60)) := by
  simp [format_seconds_to_display, HOUR_SECONDS, MINUTE_SECONDS, Nat.not_lt.mpr h]

theorem splitCols_format_lt (n : Nat) (h : n < 3600) :
    splitCols (format_seconds_to_display n) = [pad2 (n / 60), pad2 (n % 60)] := by
  rw [format_lt_hour n h,
    splitCols_append_colon _ _
      (fun c hc => digit_ne_colon (pad2_all_digit (n / 60) (by omega) c hc)),
    splitCols_no_colon _
      (fun c hc => digit_ne_colon (pad2_all_digit (n % 60) (by omega) c hc))]

theorem splitCols_format_ge (n : Nat) (h : 3600 ≤ n) :
    splitCols (format_seconds_to_display n) =
      [natDigits (n / 3600), pad2 (n % 3600 / 60), pad2 (n % 60)] := by
  rw [format_ge_hour n h,
    splitCols_append_colon _ _
      (fun c hc => digit_ne_colon (natDigits_all_digit (n / 3600) c hc)),
    splitCols_append_colon _ _
      (fun c hc => digit_ne_colon (pad2_all_digit (n % 3600 / 60) (by omega) c hc)),
    splitCols_no_colon _
      (fun c hc => digit_ne_colon (pad2_all_digit (n % 60) (by omega) c hc))]

theorem specTimeShape_format (n : Nat) :
    specTimeShape (format_seconds_to_display n) = true := by
  by_cases h : n < 3600
  · simp only [specTimeShape, splitCols_format_lt n h]
    have h1 := pad2_all_digit (n / 60) (by omega)
    have h2 := pad2_all_digit (n % 60) (by omega)
    have l2 := pad2_length (n % 60) (by omega)
    have ne1 := pad2_ne_nil (n / 60) (by omega)
    simp [List.all_eq_true, h1, h2, l2, ne1]
    exact ⟨h1, h2⟩
  · simp only [specTimeShape, splitCols_format_ge n (by omega)]
    have h1 := natDigits_all_digit (n / 3600)
    have h2 := pad2_all_digit (n % 3600 / 60) (by omega)
    have h3 := pad2_all_digit (n % 60) (by omega)
    have l2 := pad2_length (n % 3600 / 60) (by omega)
    have l3 := pad2_length (n % 60) (by omega)
    have ne1 := natDigits_ne_nil (n / 3600)
    simp [List.all_eq_true, h1, h2, h3, l2, l3, ne1]
    exact ⟨⟨h1, h2⟩, h3⟩

theorem matchTimePattern_format (n : Nat) :
    matchTimePattern (format_seconds_to_display n) = true := by
  rw [matchTimePattern_eq_specTimeShape]
  exact specTimeShape_format n

theorem perf_seconds_format (n : Nat) :
    perf_seconds (format_seconds_to_display n) = n := by
  by_cases h : n < 3600
  · rw [perf_seconds_two _ _ _ (splitCols_format_lt n h),
      digitsVal_pad2 _ (by omega), digitsVal_pad2 _ (by omega)]
    omega
  · rw [perf_seconds_three _ _ _ _ (splitCols_format_ge n (by omega)),
      digitsVal_natDigits, digitsVal_pad2 _ (by omega), digitsVal_pad2 _ (by omega)]
    omega

/-! ### Minimum and maximum of a series -/

theorem foldl_min_le_init (l : List Nat) (a : Nat) : l.foldl Nat.min a ≤ a := by
  induction l generalizing a with
  | nil => exact Nat.le_refl a
  | cons x xs ih =>
    calc (x :: xs).foldl Nat.min a = xs.foldl Nat.min (Nat.min a x) := rfl
    _ ≤ Nat.min a x := ih (Nat.min a x)
    _ ≤ a := Nat.min_le_left a x

theorem foldl_min_le_mem (l : List Nat) (a x : Nat) (h : x ∈ l) :
    l.foldl Nat.min a ≤ x := by
  induction l generalizing a with
  | nil => simp at h
  | cons y ys ih =>
    rcases List.mem_cons.mp h with rfl | h2
    · calc (x :: ys).foldl Nat.min a = ys.foldl Nat.min (Nat.min a x) := rfl
      _ ≤ Nat.min a x := foldl_min_le_init ys (Nat.min a x)
      _ ≤ x := Nat.min_le_right a x
    · exact ih (Nat.min a y) h2

theorem foldl_min_mem_or (l : List Nat) (a : Nat) :
    l.foldl Nat.min a = a ∨ l.foldl Nat.min a ∈ l := by
  induction l generalizing a with
  | nil => exact Or.inl rfl
  | cons x xs ih =>
    rcases ih (Nat.min a x) with h | h
    · rcases Nat.le_total a x with hax | hxa
      · refine Or.inl ?_
        rw [show (x :: xs).foldl Nat.min a = xs.foldl Nat.min (Nat.min a x) from rfl, h]
        exact Nat.min_eq_left hax
      · refine Or.inr (List.mem_cons.mpr (Or.inl ?_))
        rw [show (x :: xs).foldl Nat.min a = xs.foldl Nat.min (Nat.min a x) from rfl, h]
        exact Nat.min_eq_right hxa
    · exact Or.inr (List.mem_cons.mpr (Or.inr h))

theorem listMin_le (l : List Nat) (x : Nat) (h : x ∈ l) : listMin l ≤ x := by
  cases l with
  | nil => simp at h
  | cons y ys =>
    rcases List.mem_cons.mp h with rfl | h2
    · exact foldl_min_le_init ys x
    · exact foldl_min_le_mem ys y x h2

theorem listMin_mem (l : List Nat) (h : l ≠ []) : listMin l ∈ l := by
  cases l with
  | nil => exact absurd rfl h
  | cons y ys =>
    rcases foldl_min_mem_or ys y with h2 | h2
    · rw [show listMin (y :: ys) = ys.foldl Nat.min y from rfl, h2]
      exact List.mem_cons_self y ys
    · exact List.mem_cons.mpr (Or.inr h2)

theorem init_le_foldl_max (l : List Nat) (a : Nat) : a ≤ l.foldl Nat.max a := by
  induction l generalizing a with
  | nil => exact Nat.le_refl a
  | cons x xs ih =>
    calc a ≤ Nat.max a x := Nat.le_max_left a x
    _ ≤ xs.foldl Nat.max (Nat.max a x) := ih (Nat.max a x)
    _ = (x :: xs).foldl Nat.max a := rfl

theorem mem_le_foldl_max (l : List Nat) (a x : Nat) (h : x ∈ l) :
    x ≤ l.foldl Nat.max a := by
  induction l generalizing a with
  | nil => simp at h
  | cons y ys ih =>
    rcases List.mem_cons.mp h with rfl | h2
    · calc x ≤ Nat.max a x := Nat.le_max_right a x
      _ ≤ ys.foldl Nat.max (Nat.max a x) := init_le_foldl_max ys (Nat.max a x)
      _ = (x :: ys).foldl Nat.max a := rfl
    · exact ih (Nat.max a y) h2

theorem le_listMax (l : List Nat) (x : Nat) (h : x ∈ l) : x ≤ listMax l := by
  cases l with
  | nil => simp at h
  | cons y ys =>
    rcases List.mem_cons.mp h with rfl | h2
    · exact init_le_foldl_max ys x
    · exact mem_le_foldl_max ys y x h2

theorem globalMin_le (df : List NormRow) (r : NormRow) (h : r ∈ df) :
    globalMinSeconds df ≤ r.perfSeconds :=
  listMin_le _ _ (List.mem_map.mpr ⟨r, h, rfl⟩)

theorem le_globalMax (df : List NormRow) (r : NormRow) (h : r ∈ df) :
    r.perfSeconds ≤ globalMaxSeconds df :=
  le_listMax _ _ (List.mem_map.mpr ⟨r, h, rfl⟩)

/-! ### The threshold range -/

theorem start_le_end (df : List NormRow) :
    startMinuteThreshold df ≤ endMinuteThreshold df :=
  le_max_left _ _

theorem thresholdRange_ne_nil (df : List NormRow) : thresholdRangeList df ≠ [] := by
  unfold thresholdRangeList
  have h := start_le_end df
  intro hcon
  rw [List.range'_eq_nil] at hcon
  omega

theorem dynamicThresholds_eq (df : List NormRow) :
    dynamicThresholdMinutes df = thresholdRangeList df := by
  unfold dynamicThresholdMinutes
  rw [if_neg]
  simp [List.isEmpty_iff, thresholdRange_ne_nil df]

theorem mem_dynamicThresholds (df : List NormRow) (t : Nat) :
    t ∈ dynamicThresholdMinutes df ↔
      startMinuteThreshold df ≤ t ∧ t ≤ endMinuteThreshold df := by
  have h := start_le_end df
  rw [dynamicThresholds_eq]
  unfold thresholdRangeList
  rw [List.mem_range']
  constructor
  · rintro ⟨i, hi, rfl⟩
    omega
  · rintro ⟨h1, h2⟩
    exact ⟨t - startMinuteThreshold df, by omega, by omega⟩

/-! ### Comparator lemmas -/

theorem char_toNat_inj {a b : Char} (h : a.toNat = b.toNat) : a = b := by
  have h2 := congrArg Char.ofNat h
  rwa [Char.ofNat_toNat, Char.ofNat_toNat] at h2

theorem cmpNat_eq_iff (a b : Nat) : cmpNat a b = Ordering.eq ↔ a = b := by
  unfold cmpNat
  split_ifs <;> constructor <;> intro hx
  · simp at hx
  · omega
  · simp at hx
  · omega
  · omega
  · rfl

theorem cmpNat_lt_iff (a b : Nat) : cmpNat a b = Ordering.lt ↔ a < b := by
  unfold cmpNat
  split_ifs <;> constructor <;> intro hx
  · assumption
  · rfl
  · simp at hx
  · omega
  · simp at hx
  · omega

theorem cmpNat_gt_iff (a b : Nat) : cmpNat a b = Ordering.gt ↔ b < a := by
  unfold cmpNat
  split_ifs <;> constructor <;> intro hx
  · simp at hx
  · omega
  · assumption
  · rfl
  · simp at hx
  · omega

theorem cmpNat_swap (a b : Nat) : cmpNat a b = (cmpNat b a).swap := by
  unfold cmpNat
  split_ifs <;> first | rfl | omega

theorem cmpLexChar_eq_iff : ∀ xs ys : List Char, cmpLexChar xs ys = Ordering.eq ↔ xs = ys := by
  intro xs
  induction xs with
  | nil =>
    intro ys
    cases ys <;> simp [cmpLexChar]
  | cons a as ih =>
    intro ys
    cases ys with
    | nil => simp [cmpLexChar]
    | cons b bs =>
      simp only [cmpLexChar]
      cases hab : cmpNat a.toNat b.toNat
      · constructor
        · intro hx
          simp at hx
        · intro hx
          injection hx with h1 h2
          rw [h1] at hab
          rw [(cmpNat_eq_iff b.toNat b.toNat).mpr rfl] at hab
          exact absurd hab (by decide)
      · have hab2 : a = b := char_toNat_inj ((cmpNat_eq_iff _ _).mp hab)
        subst hab2
        rw [ih bs]
        simp
      · constructor
        · intro hx
          simp at hx
        · intro hx
          injection hx with h1 h2
          rw [h1] at hab
          rw [(cmpNat_eq_iff b.toNat b.toNat).mpr rfl] at hab
          exact absurd hab (by decide)

theorem cmpLexChar_swap : ∀ xs ys : List Char, cmpLexChar xs ys = (cmpLexChar ys xs).swap := by
  intro xs
  induction xs with
  | nil =>
    intro ys
    cases ys <;> rfl
  | cons a as ih =>
    intro ys
    cases ys with
    | nil => rfl
    | cons b bs =>
      simp only [cmpLexChar]
      rw [cmpNat_swap a.toNat b.toNat]
      cases cmpNat b.toNat a.toNat
      · rfl
      · exact ih bs
      · rfl

theorem cmpLexChar_lt_trans :
    ∀ xs ys zs : List Char, cmpLexChar xs ys = Ordering.lt →
      cmpLexChar ys zs = Ordering.lt → cmpLexChar xs zs = Ordering.lt := by
  intro xs
  induction xs with
  | nil =>
    intro ys zs h1 h2
    cases ys with
    | nil => exact absurd h1 (by simp [cmpLexChar])
    | cons b bs =>
      cases zs with
      | nil => exact absurd h2 (by simp [cmpLexChar])
      | cons c cz => rfl
  | cons a as ih =>
    intro ys zs h1 h2
    cases ys with
    | nil => exact absurd h1 (by simp [cmpLexChar])
    | cons b bs =>
      cases zs with
      | nil => exact absurd h2 (by simp [cmpLexChar])
      | cons c cz =>
        simp only [cmpLexChar] at h1 h2 ⊢
        cases hab : cmpNat a.toNat b.toNat <;> rw [hab] at h1 <;>
          cases hbc : cmpNat b.toNat c.toNat <;> rw [hbc] at h2
        · have hac : a.toNat < c.toNat :=
            Nat.lt_trans ((cmpNat_lt_iff _ _).mp hab) ((cmpNat_lt_iff _ _).mp hbc)
          rw [(cmpNat_lt_iff _ _).mpr hac]
        · have hb2 : b = c := char_toNat_inj ((cmpNat_eq_iff _ _).mp hbc)
          subst hb2
          rw [hab]
        · simp at h2
        · have ha2 : a = b := char_toNat_inj ((cmpNat_eq_iff _ _).mp hab)
          subst ha2
          rw [hbc]
        · have ha2 : a = b := char_toNat_inj ((cmpNat_eq_iff _ _).mp hab)
          have hb2 : b = c := char_toNat_inj ((cmpNat_eq_iff _ _).mp hbc)
          subst ha2
          subst hb2
          rw [(cmpNat_eq_iff _ _).mpr rfl]
          exact ih bs cz h1 h2
        · simp at h2
        · simp at h1
        · simp at h1
        · simp at h1

theorem cmpLexChar_le_trans {xs ys zs : List Char}
    (h1 : cmpLexChar xs ys ≠ Ordering.gt) (h2 : cmpLexChar ys zs ≠ Ordering.gt) :
    cmpLexChar xs zs ≠ Ordering.gt := by
  cases hxy : cmpLexChar xs ys with
  | gt => exact absurd hxy h1
  | eq =>
    have h3 : xs = ys := (cmpLexChar_eq_iff xs ys).mp hxy
    subst h3
    exact h2
  | lt =>
    cases hyz : cmpLexChar ys zs with
    | gt => exact absurd hyz h2
    | eq =>
      have h3 : ys = zs := (cmpLexChar_eq_iff ys zs).mp hyz
      subst h3
      rw [hxy]
      decide
    | lt =>
      rw [cmpLexChar_lt_trans xs ys zs hxy hyz]
      decide

theorem cmpLexDescNat_eq_iff :
    ∀ xs ys : List Nat, cmpLexDescNat xs ys = Ordering.eq ↔ xs = ys := by
  intro xs
  induction xs with
  | nil =>
    intro ys
    cases ys <;> simp [cmpLexDescNat]
  | cons a as ih =>
    intro ys
    cases ys with
    | nil => simp [cmpLexDescNat]
    | cons b bs =>
      simp only [cmpLexDescNat]
      cases hab : cmpNat b a
      · constructor
        · intro hx
          simp at hx
        · intro hx
          injection hx with h1 h2
          rw [h1] at hab
          rw [(cmpNat_eq_iff b b).mpr rfl] at hab
          exact absurd hab (by decide)
      · have hab2 : b = a := (cmpNat_eq_iff _ _).mp hab
        subst hab2
        rw [ih bs]
        simp
      · constructor
        · intro hx
          simp at hx
        · intro hx
          injection hx with h1 h2
          rw [h1] at hab
          rw [(cmpNat_eq_iff b b).mpr rfl] at hab
          exact absurd hab (by decide)

theorem cmpLexDescNat_swap :
    ∀ xs ys : List Nat, cmpLexDescNat xs ys = (cmpLexDescNat ys xs).swap := by
  intro xs
  induction xs with
  | nil =>
    intro ys
    cases ys <;> rfl
  | cons a as ih =>
    intro ys
    cases ys with
    | nil => rfl
    | cons b bs =>
      simp only [cmpLexDescNat]
      rw [cmpNat_swap b a]
      cases cmpNat a b
      · rfl
      · exact ih bs
      · rfl

theorem cmpLexDescNat_lt_trans :
    ∀ xs ys zs : List Nat, cmpLexDescNat xs ys = Ordering.lt →
      cmpLexDescNat ys zs = Ordering.lt → cmpLexDescNat xs zs = Ordering.lt := by
  intro xs
  induction xs with
  | nil =>
    intro ys zs h1 h2
    cases ys with
    | nil => exact absurd h1 (by simp [cmpLexDescNat])
    | cons b bs =>
      cases zs with
      | nil => exact absurd h2 (by simp [cmpLexDescNat])
      | cons c cz => rfl
  | cons a as ih =>
    intro ys zs h1 h2
    cases ys with
    | nil => exact absurd h1 (by simp [cmpLexDescNat])
    | cons b bs =>
      cases zs with
      | nil => exact absurd h2 (by simp [cmpLexDescNat])
      | cons c cz =>
        simp only [cmpLexDescNat] at h1 h2 ⊢
        cases hab : cmpNat b a <;> rw [hab] at h1 <;>
          cases hbc : cmpNat c b <;> rw [hbc] at h2
        · have hac : c < a :=
            Nat.lt_trans ((cmpNat_lt_iff _ _).mp hbc) ((cmpNat_lt_iff _ _).mp hab)
          rw [(cmpNat_lt_iff c a).mpr hac]
        · have hb2 : c = b := (cmpNat_eq_iff _ _).mp hbc
          subst hb2
          rw [hab]
        · simp at h2
        · have ha2 : b = a := (cmpNat_eq_iff _ _).mp hab
          subst ha2
          rw [hbc]
        · have ha2 : b = a := (cmpNat_eq_iff _ _).mp hab
          have hb2 : c = b := (cmpNat_eq_iff _ _).mp hbc
          subst ha2
          subst hb2
          rw [(cmpNat_eq_iff _ _).mpr rfl]
          exact ih bs cz h1 h2
        · simp at h2
        · simp at h1
        · simp at h1
        · simp at h1

theorem rowCmp_swap (a b : AggRow) : rowCmp a b = (rowCmp b a).swap := by
  simp only [rowCmp]
  rw [cmpLexDescNat_swap a.counts b.counts]
  cases cmpLexDescNat b.counts a.counts
  · rfl
  · exact cmpLexChar_swap _ _
  · rfl

theorem rowLe_total (a b : AggRow) : rowLe a b ∨ rowLe b a := by
  unfold rowLe
  by_cases h : rowCmp b a = Ordering.gt
  · left
    rw [rowCmp_swap a b, h]
    decide
  · exact Or.inr h

theorem rowLe_trans {a b c : AggRow} (h1 : rowLe a b) (h2 : rowLe b c) : rowLe a c := by
  unfold rowLe rowCmp at h1 h2 ⊢
  cases hab : cmpLexDescNat a.counts b.counts <;> rw [hab] at h1 <;>
    cases hbc : cmpLexDescNat b.counts c.counts <;> rw [hbc] at h2
  · rw [cmpLexDescNat_lt_trans _ _ _ hab hbc]
    simp
  · have h3 : b.counts = c.counts := (cmpLexDescNat_eq_iff _ _).mp hbc
    rw [← h3, hab]
    simp
  · exact absurd rfl h2
  · have h3 : a.counts = b.counts := (cmpLexDescNat_eq_iff _ _).mp hab
    rw [h3, hbc]
    simp
  · have h3 : a.counts = b.counts := (cmpLexDescNat_eq_iff _ _).mp hab
    have h4 : b.counts = c.counts := (cmpLexDescNat_eq_iff _ _).mp hbc
    rw [h3, h4, (cmpLexDescNat_eq_iff c.counts c.counts).mpr rfl]
    have h1b : cmpLexChar (format_seconds_to_display a.fastest)
        (format_seconds_to_display b.fastest) ≠ Ordering.gt := h1
    have h2b : cmpLexChar (format_seconds_to_display b.fastest)
        (format_seconds_to_display c.fastest) ≠ Ordering.gt := h2
    exact cmpLexChar_le_trans h1b h2b
  · exact absurd rfl h2
  · exact absurd rfl h1
  · exact absurd rfl h1
  · exact absurd rfl h1

/-! ### Display-string comparison agrees with numeric order within a minute -/

theorem cmpLexChar_append_left :
    ∀ p x y : List Char, cmpLexChar (p ++ x) (p ++ y) = cmpLexChar x y := by
  intro p
  induction p with
  | nil => intro x y; rfl
  | cons a as ih =>
    intro x y
    simp only [List.cons_append, cmpLexChar]
    rw [(cmpNat_eq_iff a.toNat a.toNat).mpr rfl]
    exact ih x y

theorem cmpNat_toNat_digitChar (x y : Nat) (hx : x < 10) (hy : y < 10) :
    cmpNat (digitChar x).toNat (digitChar y).toNat = cmpNat x y := by
  rw [toNat_digitChar x hx, toNat_digitChar y hy]
  unfold cmpNat
  split_ifs <;> first | rfl | omega

theorem cmpLexChar_pad2 (a b : Nat) (ha : a < 100) (hb : b < 100) :
    cmpLexChar (pad2 a) (pad2 b) = cmpNat a b := by
  rw [pad2_eq a ha, pad2_eq b hb]
  simp only [cmpLexChar]
  rw [cmpNat_toNat_digitChar _ _ (by omega) (by omega),
    cmpNat_toNat_digitChar _ _ (Nat.mod_lt a (by omega)) (Nat.mod_lt b (by omega))]
  cases h1 : cmpNat (a / 10) (b / 10)
  · have hab : a < b := by
      have := (cmpNat_lt_iff (a / 10) (b / 10)).mp h1
      omega
    rw [(cmpNat_lt_iff a b).mpr hab]
  · have hdiv : a / 10 = b / 10 := (cmpNat_eq_iff _ _).mp h1
    cases h2 : cmpNat (a % 10) (b % 10)
    · have hab : a < b := by
        have := (cmpNat_lt_iff (a % 10) (b % 10)).mp h2
        omega
      rw [(cmpNat_lt_iff a b).mpr hab]
    · have hmod : a % 10 = b % 10 := (cmpNat_eq_iff _ _).mp h2
      have hab : a = b := by omega
      rw [(cmpNat_eq_iff a b).mpr hab]
    · have hab : b < a := by
        have := (cmpNat_gt_iff (a % 10) (b % 10)).mp h2
        omega
      rw [(cmpNat_gt_iff a b).mpr hab]
  · have hab : b < a := by
      have := (cmpNat_gt_iff (a / 10) (b / 10)).mp h1
      omega
    rw [(cmpNat_gt_iff a b).mpr hab]

theorem format_le_of_same_minute {f1 f2 : Nat} (hm : f1 / 60 = f2 / 60)
    (hle : cmpLexChar (format_seconds_to_display f1) (format_seconds_to_display f2) ≠
      Ordering.gt) :
    f1 ≤ f2 := by
  by_cases hh : f1 < 3600
  · have hh2 : f2 < 3600 := by omega
    rw [format_lt_hour f1 hh, format_lt_hour f2 hh2, hm] at hle
    have hre : ∀ s : List Char,
        pad2 (f2 / 60) ++ ':' :: s = (pad2 (f2 / 60) ++ [':']) ++ s := by
      intro s
      simp
    rw [hre (pad2 (f1 % 60)), hre (pad2 (f2 % 60)), cmpLexChar_append_left,
      cmpLexChar_pad2 _ _ (by omega) (by omega)] at hle
    have hmod : ¬ (f2 % 60 < f1 % 60) := fun hc => hle ((cmpNat_gt_iff _ _).mpr hc)
    omega
  · have hh2 : ¬ f2 < 3600 := by omega
    rw [format_ge_hour f1 (by omega), format_ge_hour f2 (by omega)] at hle
    have e1 : f1 / 3600 = f2 / 3600 := by omega
    have e2 : f1 % 3600 / 60 = f2 % 3600 / 60 := by omega
    rw [e1, e2] at hle
    have hre : ∀ s : List Char,
        natDigits (f2 / 3600) ++ ':' :: (pad2 (f2 % 3600 / 60) ++ ':' :: s) =
          (natDigits (f2 / 3600) ++ ':' :: pad2 (f2 % 3600 / 60) ++ [':']) ++ s := by
      intro s
      simp
    rw [hre (pad2 (f1 % 60)), hre (pad2 (f2 % 60)), cmpLexChar_append_left,
      cmpLexChar_pad2 _ _ (by omega) (by omega)] at hle
    have hmod : ¬ (f2 % 60 < f1 % 60) := fun hc => hle ((cmpNat_gt_iff _ _).mpr hc)
    omega

/-! ### Groups and aggregation -/

theorem membersOf_sub (df : List NormRow) (k : String × String × String) :
    ∀ r ∈ membersOf df k, r ∈ df := fun _ hr => (List.mem_filter.mp hr).1

theorem mem_membersOf_key (df : List NormRow) (k : String × String × String)
    (r : NormRow) (h : r ∈ membersOf df k) : keyOf r = k :=
  of_decide_eq_true (List.mem_filter.mp h).2

theorem membersOf_ne_nil (df : List NormRow) (k : String × String × String)
    (hk : k ∈ groupKeys df) : membersOf df k ≠ [] := by
  unfold groupKeys at hk
  have hk2 : k ∈ df.map keyOf := List.mem_dedup.mp hk
  obtain ⟨r, hr, hkey⟩ := List.mem_map.mp hk2
  intro hcon
  have hmem : r ∈ membersOf df k := List.mem_filter.mpr ⟨hr, by simp [hkey]⟩
  rw [hcon] at hmem
  simp at hmem

theorem countUnder_pos_iff (g : List NormRow) (hg : g ≠ []) (t : Nat) :
    1 ≤ countUnder g t ↔ listMin (g.map NormRow.perfSeconds) < t * 60 := by
  unfold countUnder MINUTE_SECONDS
  constructor
  · intro h
    have h0 : 0 < List.countP (fun r => decide (r.perfSeconds < t * 60)) g := by omega
    obtain ⟨r, hr, hp⟩ := List.countP_pos_iff.mp h0
    have hmin := listMin_le (g.map NormRow.perfSeconds) r.perfSeconds
      (List.mem_map.mpr ⟨r, hr, rfl⟩)
    have hp2 : r.perfSeconds < t * 60 := of_decide_eq_true hp
    omega
  · intro h
    have hmem := listMin_mem (g.map NormRow.perfSeconds)
      (fun hcon => hg (List.map_eq_nil_iff.mp hcon))
    obtain ⟨r, hr, hre⟩ := List.mem_map.mp hmem
    have hrp : r.perfSeconds < t * 60 := by omega
    have h0 : 0 < List.countP (fun x => decide (x.perfSeconds < t * 60)) g :=
      List.countP_pos_iff.mpr ⟨r, hr, decide_eq_true hrp⟩
    omega

theorem countUnder_eq_length_iff (g : List NormRow) (t : Nat) :
    countUnder g t = g.length ↔ ∀ r ∈ g, r.perfSeconds < t * 60 := by
  unfold countUnder MINUTE_SECONDS
  rw [List.countP_eq_length]
  constructor
  · intro h r hr
    exact of_decide_eq_true (h r hr)
  · intro h r hr
    exact decide_eq_true (h r hr)

theorem countUnder_mono (g : List NormRow) (t u : Nat) (h : t ≤ u) :
    countUnder g t ≤ countUnder g u := by
  unfold countUnder
  refine List.countP_mono_left fun r _ hp => ?_
  have hp2 : r.perfSeconds < t * MINUTE_SECONDS := of_decide_eq_true hp
  exact decide_eq_true (show r.perfSeconds < u * MINUTE_SECONDS by
    have : t * MINUTE_SECONDS ≤ u * MINUTE_SECONDS := Nat.mul_le_mul_right _ h
    omega)

theorem aggRows_mem (df : List NormRow) (r : AggRow) (hr : r ∈ aggRows df) :
    ∃ k, k ∈ groupKeys df ∧ r = aggRowOf (dynamicThresholdMinutes df) df k := by
  unfold aggRows at hr
  obtain ⟨k, hk, rfl⟩ := List.mem_map.mp hr
  exact ⟨k, hk, rfl⟩

/-- Core numeric reasoning for the final tie-break: two groups of the same
batch whose bucket counts agree at every threshold have their fastest times
in the same minute bracket (or equal at the top boundary), so agreement of
the display strings in code-point order forces numeric order. -/
theorem fast_le_core {s e fa fb : Nat} (hse : s ≤ e) (hs : 1 ≤ s)
    (h1 : ∀ t, s ≤ t → t ≤ e → (fa < t * 60 ↔ fb < t * 60))
    (ha1 : 60 * (s - 1) ≤ fa) (ha2 : fa ≤ 60 * e)
    (hb1 : 60 * (s - 1) ≤ fb) (hb2 : fb ≤ 60 * e)
    (hle : cmpLexChar (format_seconds_to_display fa) (format_seconds_to_display fb) ≠
      Ordering.gt) :
    fa ≤ fb := by
  by_cases hta : fa / 60 + 1 ≤ e
  · have h2 : fb < (fa / 60 + 1) * 60 := (h1 (fa / 60 + 1) (by omega) hta).mp (by omega)
    by_cases htb : fb / 60 + 1 ≤ e
    · have h3 : fa < (fb / 60 + 1) * 60 := (h1 (fb / 60 + 1) (by omega) htb).mpr (by omega)
      have hmm : fa / 60 = fb / 60 := by omega
      exact format_le_of_same_minute hmm hle
    · omega
  · have h4 : ¬ (fb < e * 60) := by
      intro hc
      have h5 := (h1 e hse (Nat.le_refl e)).mpr hc
      omega
    omega

theorem agg_fastest_le (df : List NormRow) {ra rb : AggRow}
    (hra : ra ∈ aggRows df) (hrb : rb ∈ aggRows df)
    (hc : ra.counts = rb.counts)
    (hle : cmpLexChar (format_seconds_to_display ra.fastest)
      (format_seconds_to_display rb.fastest) ≠ Ordering.gt) :
    ra.fastest ≤ rb.fastest := by
  obtain ⟨ka, hka, rfl⟩ := aggRows_mem df ra hra
  obtain ⟨kb, hkb, rfl⟩ := aggRows_mem df rb hrb
  have hgane : membersOf df ka ≠ [] := membersOf_ne_nil df ka hka
  have hgbne : membersOf df kb ≠ [] := membersOf_ne_nil df kb hkb
  simp only [aggRowOf] at hc hle ⊢
  have hbounds : ∀ k, membersOf df k ≠ [] →
      globalMinSeconds df ≤ listMin ((membersOf df k).map NormRow.perfSeconds) ∧
        listMin ((membersOf df k).map NormRow.perfSeconds) ≤ globalMaxSeconds df := by
    intro k hk
    obtain ⟨x, hx, hxe⟩ := List.mem_map.mp
      (listMin_mem ((membersOf df k).map NormRow.perfSeconds)
        (fun hcon => hk (List.map_eq_nil_iff.mp hcon)))
    constructor
    · rw [← hxe]
      exact globalMin_le df x (membersOf_sub df k x hx)
    · rw [← hxe]
      exact le_globalMax df x (membersOf_sub df k x hx)
  obtain ⟨hfa1, hfa2⟩ := hbounds ka hgane
  obtain ⟨hfb1, hfb2⟩ := hbounds kb hgbne
  have hsd : startMinuteThreshold df = globalMinSeconds df / 60 + 1 := rfl
  have hed : endMinuteThreshold df =
      max (startMinuteThreshold df) ((globalMaxSeconds df + 59) / 60) := rfl
  have h1 : ∀ t, startMinuteThreshold df ≤ t → t ≤ endMinuteThreshold df →
      (listMin ((membersOf df ka).map NormRow.perfSeconds) < t * 60 ↔
        listMin ((membersOf df kb).map NormRow.perfSeconds) < t * 60) := by
    intro t ht1 ht2
    have ht : t ∈ dynamicThresholdMinutes df := (mem_dynamicThresholds df t).mpr ⟨ht1, ht2⟩
    have hcnt : countUnder (membersOf df ka) t = countUnder (membersOf df kb) t :=
      List.map_eq_map_iff.mp hc t ht
    rw [← countUnder_pos_iff (membersOf df ka) hgane t, hcnt,
      countUnder_pos_iff (membersOf df kb) hgbne t]
  exact fast_le_core (start_le_end df) (by omega) h1 (by omega) (by omega) (by omega)
    (by omega) hle

/-! ### Maximum attained; threshold list endpoints and contiguity -/

theorem foldl_max_mem_or (l : List Nat) (a : Nat) :
    l.foldl Nat.max a = a ∨ l.foldl Nat.max a ∈ l := by
  induction l generalizing a with
  | nil => exact Or.inl rfl
  | cons x xs ih =>
    rcases ih (Nat.max a x) with h | h
    · rcases Nat.le_total a x with hax | hxa
      · refine Or.inr (List.mem_cons.mpr (Or.inl ?_))
        rw [show (x :: xs).foldl Nat.max a = xs.foldl Nat.max (Nat.max a x) from rfl, h]
        exact Nat.max_eq_right hax
      · refine Or.inl ?_
        rw [show (x :: xs).foldl Nat.max a = xs.foldl Nat.max (Nat.max a x) from rfl, h]
        exact Nat.max_eq_left hxa
    · exact Or.inr (List.mem_cons.mpr (Or.inr h))

theorem listMax_mem (l : List Nat) (h : l ≠ []) : listMax l ∈ l := by
  cases l with
  | nil => exact absurd rfl h
  | cons y ys =>
    rcases foldl_max_mem_or ys y with h2 | h2
    · rw [show listMax (y :: ys) = ys.foldl Nat.max y from rfl, h2]
      exact List.mem_cons_self y ys
    · exact List.mem_cons.mpr (Or.inr h2)

theorem dynThresholds_head (df : List NormRow) :
    (dynamicThresholdMinutes df).head? = some (startMinuteThreshold df) := by
  rw [dynamicThresholds_eq]
  unfold thresholdRangeList
  rw [List.head?_range']
  rw [if_neg]
  have h := start_le_end df
  omega

theorem dynThresholds_getLast (df : List NormRow) :
    (dynamicThresholdMinutes df).getLast? = some (endMinuteThreshold df) := by
  rw [dynamicThresholds_eq]
  unfold thresholdRangeList
  have h := start_le_end df
  have hn : endMinuteThreshold df + 1 - startMinuteThreshold df =
      (endMinuteThreshold df - startMinuteThreshold df) + 1 := by omega
  rw [hn, List.range'_concat, List.getLast?_concat]
  congr 1
  omega

theorem dynThresholds_chain (df : List NormRow) :
    List.Chain' (fun x y => y = x + 1) (dynamicThresholdMinutes df) := by
  rw [dynamicThresholds_eq]
  unfold thresholdRangeList
  apply List.chain'_iff_get.mpr
  intro i hlen
  simp only [List.get_eq_getElem, List.getElem_range']
  omega

theorem dynThresholds_pairwise_lt (df : List NormRow) :
    (dynamicThresholdMinutes df).Pairwise (· < ·) := by
  rw [dynamicThresholds_eq]
  unfold thresholdRangeList
  apply List.pairwise_iff_get.mpr
  intro i j hij
  simp only [List.get_eq_getElem, List.getElem_range']
  have hj := j.isLt
  simp only [List.length_range'] at hj
  omega

/-! ### The sorted presenter output -/

theorem sortedAggRows_sorted (df : List NormRow) :
    List.Sorted rowLe (sortedAggRows df) := by
  haveI : IsTotal AggRow rowLe := ⟨rowLe_total⟩
  haveI : IsTrans AggRow rowLe := ⟨fun _ _ _ h1 h2 => rowLe_trans h1 h2⟩
  exact List.sorted_insertionSort rowLe (aggRows df)

theorem sortedAggRows_perm (df : List NormRow) :
    (sortedAggRows df).Perm (aggRows df) :=
  List.perm_insertionSort rowLe (aggRows df)

theorem sortedAggRows_mem (df : List NormRow) (r : AggRow)
    (h : r ∈ sortedAggRows df) : r ∈ aggRows df :=
  (sortedAggRows_perm df).mem_iff.mp h

theorem sortedAggRows_adjacent (df : List NormRow) (i : Nat)
    (h : i + 1 < (sortedAggRows df).length) :
    rowLe ((sortedAggRows df).get ⟨i, Nat.lt_of_succ_lt h⟩)
      ((sortedAggRows df).get ⟨i + 1, h⟩) := by
  have hs := sortedAggRows_sorted df
  exact List.pairwise_iff_get.mp hs ⟨i, Nat.lt_of_succ_lt h⟩ ⟨i + 1, h⟩
    (by simp [Fin.lt_def])

/-! ### Claim theorems -/

/-- C1: for every non-empty batch of normalized results, the derived
ThresholdSet is the contiguous sequence of integers from
`t_0 = floor(global_min_seconds / 60) + 1` to
`t_n = max(t_0, ceil(global_max_seconds / 60))` inclusive, where the global
min and max are the minimum and maximum `time_seconds` over the whole batch
(attained and bounding every row). -/
theorem C1_thresholds_contiguous (df : List NormRow) (h : df ≠ []) :
    dynamicThresholdMinutes df =
      closedRange (globalMinSeconds df / 60 + 1)
        (max (globalMinSeconds df / 60 + 1) (ceilDiv (globalMaxSeconds df) 60)) ∧
    (dynamicThresholdMinutes df).head? = some (globalMinSeconds df / 60 + 1) ∧
    (dynamicThresholdMinutes df).getLast? =
      some (max (globalMinSeconds df / 60 + 1) (ceilDiv (globalMaxSeconds df) 60)) ∧
    List.Chain' (fun x y => y = x + 1) (dynamicThresholdMinutes df) ∧
    (∀ r ∈ df, globalMinSeconds df ≤ r.perfSeconds ∧
      r.perfSeconds ≤ globalMaxSeconds df) ∧
    globalMinSeconds df ∈ df.map NormRow.perfSeconds ∧
    globalMaxSeconds df ∈ df.map NormRow.perfSeconds := by
  refine ⟨?_, ?_, ?_, dynThresholds_chain df, ?_, ?_, ?_⟩
  · rw [dynamicThresholds_eq]
    rfl
  · rw [dynThresholds_head df]
    rfl
  · rw [dynThresholds_getLast df]
    rfl
  · intro r hr
    exact ⟨globalMin_le df r hr, le_globalMax df r hr⟩
  · exact listMin_mem _ (fun hc => h (List.map_eq_nil_iff.mp hc))
  · exact listMax_mem _ (fun hc => h (List.map_eq_nil_iff.mp hc))

/-- Witness for C1 at the worked scenario batch. -/
theorem C1_witness :
    sampleBatch ≠ [] ∧
      dynamicThresholdMinutes sampleBatch =
        closedRange (globalMinSeconds sampleBatch / 60 + 1)
          (max (globalMinSeconds sampleBatch / 60 + 1)
            (ceilDiv (globalMaxSeconds sampleBatch) 60)) := by
  have h : sampleBatch ≠ [] := by simp [sampleBatch]
  exact ⟨h, (C1_thresholds_contiguous sampleBatch h).1⟩

/-- C2 counterexample: in `boundaryBatch` (global max 3600 = 60 * 60, last
threshold 60) the non-empty Beta group has a member with
`time_seconds = 3600`, which is not below `t_n * 60 = 3600`, and the count
recorded for the last threshold is 0, not at least 1. -/
theorem C2_counterexample :
    boundaryBatch ≠ [] ∧
    membersOf boundaryBatch ("01 Jan 24", "Beta", "UK") ≠ [] ∧
    (dynamicThresholdMinutes boundaryBatch).getLast? = some 60 ∧
    ¬ (∀ r ∈ membersOf boundaryBatch ("01 Jan 24", "Beta", "UK"),
        r.perfSeconds < 60 * 60) ∧
    countUnder (membersOf boundaryBatch ("01 Jan 24", "Beta", "UK")) 60 = 0 := by
  refine ⟨by simp [boundaryBatch], by decide, by decide, by decide, by decide⟩

/-- C2 (amended): for every group of a non-empty batch, every member has
`time_seconds ≤ t_n * 60` where `t_n` is the last threshold, and whenever
`global_max_seconds < t_n * 60` (in particular whenever the global maximum
is not an exact multiple of 60) the count recorded for `t_n` includes every
member of the group, so it equals the group size and is at least 1; members
at exactly `t_n * 60` (possible only when the global maximum is a multiple
of 60) are not counted. -/
theorem C2_amended (df : List NormRow) (_h : df ≠ []) (k : String × String × String)
    (hk : k ∈ groupKeys df) :
    (∀ r ∈ membersOf df k, r.perfSeconds ≤ endMinuteThreshold df * 60) ∧
    (dynamicThresholdMinutes df).getLast? = some (endMinuteThreshold df) ∧
    (globalMaxSeconds df < endMinuteThreshold df * 60 →
      countUnder (membersOf df k) (endMinuteThreshold df) = (membersOf df k).length ∧
        1 ≤ countUnder (membersOf df k) (endMinuteThreshold df)) := by
  have hed : endMinuteThreshold df =
      max (startMinuteThreshold df) ((globalMaxSeconds df + 59) / 60) := rfl
  refine ⟨?_, dynThresholds_getLast df, ?_⟩
  · intro r hr
    have h1 := le_globalMax df r (membersOf_sub df k r hr)
    omega
  · intro hmax
    have hcnt : countUnder (membersOf df k) (endMinuteThreshold df) =
        (membersOf df k).length := by
      rw [countUnder_eq_length_iff]
      intro r hr
      have h1 := le_globalMax df r (membersOf_sub df k r hr)
      omega
    have hne := membersOf_ne_nil df k hk
    have hlen : 1 ≤ (membersOf df k).length := List.length_pos.mpr hne
    omega

/-- Witness for the amended C2 at the worked scenario batch. -/
theorem C2_amended_witness :
    sampleBatch ≠ [] ∧
      ("01 Jan 24", "Parliament Hill", "GB") ∈ groupKeys sampleBatch ∧
      ∀ r ∈ membersOf sampleBatch ("01 Jan 24", "Parliament Hill", "GB"),
        r.perfSeconds ≤ endMinuteThreshold sampleBatch * 60 := by
  have h1 : sampleBatch ≠ [] := by simp [sampleBatch]
  have h2 : ("01 Jan 24", "Parliament Hill", "GB") ∈ groupKeys sampleBatch := by decide
  exact ⟨h1, h2, (C2_amended sampleBatch h1 _ h2).1⟩

/-- C3: in the sorted presenter output, each adjacent pair is ordered by the
multi-column sort key (all threshold count columns descending, in ascending
threshold order), and any two adjacent rows that agree on all threshold
counts have their fastest times in ascending numeric order. -/
theorem C3_sort_order (df : List NormRow) (i : Nat)
    (h : i + 1 < (sortedAggRows df).length) :
    cmpLexDescNat ((sortedAggRows df).get ⟨i, Nat.lt_of_succ_lt h⟩).counts
        ((sortedAggRows df).get ⟨i + 1, h⟩).counts ≠ Ordering.gt ∧
    (((sortedAggRows df).get ⟨i, Nat.lt_of_succ_lt h⟩).counts =
        ((sortedAggRows df).get ⟨i + 1, h⟩).counts →
      ((sortedAggRows df).get ⟨i, Nat.lt_of_succ_lt h⟩).fastest ≤
        ((sortedAggRows df).get ⟨i + 1, h⟩).fastest) := by
  have hadj := sortedAggRows_adjacent df i h
  set ra := (sortedAggRows df).get ⟨i, Nat.lt_of_succ_lt h⟩ with hra
  set rb := (sortedAggRows df).get ⟨i + 1, h⟩ with hrb
  have hadj2 : rowCmp ra rb ≠ Ordering.gt := hadj
  constructor
  · intro hcon
    apply hadj2
    unfold rowCmp
    rw [hcon]
  · intro hc
    have hdesc : cmpLexDescNat ra.counts rb.counts = Ordering.eq :=
      (cmpLexDescNat_eq_iff _ _).mpr hc
    have hstr : cmpLexChar (format_seconds_to_display ra.fastest)
        (format_seconds_to_display rb.fastest) ≠ Ordering.gt := by
      intro hcon
      apply hadj2
      unfold rowCmp
      rw [hdesc]
      exact hcon
    have hmema : ra ∈ aggRows df :=
      sortedAggRows_mem df ra (List.get_mem _ _ _)
    have hmemb : rb ∈ aggRows df :=
      sortedAggRows_mem df rb (List.get_mem _ _ _)
    exact agg_fastest_le df hmema hmemb hc hstr

/-- Witness for C3 at the worked scenario batch. -/
theorem C3_witness :
    0 + 1 < (sortedAggRows sampleBatch).length ∧
      cmpLexDescNat ((sortedAggRows sampleBatch).get ⟨0, by decide⟩).counts
        ((sortedAggRows sampleBatch).get ⟨1, by decide⟩).counts ≠ Ordering.gt := by
  have h : 0 + 1 < (sortedAggRows sampleBatch).length := by decide
  exact ⟨h, (C3_sort_order sampleBatch 0 h).1⟩

/-- C4: the time parser accepts exactly the strings matching
`^\d+:\d\{2\}(:\d\{2\})?$` (2 or 3 colon-separated digit groups, the first
non-empty, the rest exactly two digits), computes the base-60 positional sum
over groups counted from the right, and the normalized set is exactly the
image of the rows whose time string matches. -/
theorem C4_parse :
    (∀ s : String, (parse_time s).isSome = specTimeShape s.data) ∧
    (∀ cs a b : List Char, splitCols cs = [a, b] →
      perf_seconds cs = digitsVal a * 60 ^ 1 + digitsVal b * 60 ^ 0) ∧
    (∀ cs a b c : List Char, splitCols cs = [a, b, c] →
      perf_seconds cs = digitsVal a * 60 ^ 2 + digitsVal b * 60 ^ 1 +
        digitsVal c * 60 ^ 0) ∧
    (∀ (hasDate : Bool) (rows : List RawRow) (l : List NormRow),
      get_ranking_data hasDate rows = Except.ok l →
        l.Perm ((rows.filter (fun r => matchTimePattern r.perf.data)).map
          normalizeRow)) := by
  refine ⟨?_, ?_, ?_, ?_⟩
  · intro s
    unfold parse_time
    rw [matchTimePattern_eq_specTimeShape]
    cases h : specTimeShape s.data <;> simp [h]
  · intro cs a b hsplit
    rw [perf_seconds_two cs a b hsplit]
    simp
  · intro cs a b c hsplit
    rw [perf_seconds_three cs a b c hsplit]
    norm_num [pow_succ]
  · intro hasDate rows l hok
    simp only [get_ranking_data] at hok
    cases hemp : (rows.filter (fun r => matchTimePattern r.perf.data)).isEmpty
    · rw [hemp] at hok
      cases hasDate
      · simp at hok
      · simp only [Bool.false_eq_true, if_false, if_true] at hok
        injection hok with hok2
        subst hok2
        exact List.Perm.map normalizeRow
          (List.perm_insertionSort perfLe _)
    · rw [hemp] at hok
      simp only [if_true] at hok
      injection hok with hok2
      subst hok2
      have hfe : rows.filter (fun r => matchTimePattern r.perf.data) = [] :=
        List.isEmpty_iff.mp hemp
      rw [hfe]
      simp

/-- Witness for C4 on concrete strings and a concrete raw batch. -/
theorem C4_witness :
    (parse_time "27:57").isSome = specTimeShape "27:57".data ∧
      perf_seconds "1:02:03".data =
        digitsVal ['1'] * 60 ^ 2 + digitsVal ['0', '2'] * 60 ^ 1 +
          digitsVal ['0', '3'] * 60 ^ 0 ∧
      List.Perm
        [{ date := "01 Jan 24", venue := "Parliament Hill", country := "GB",
            perfSeconds := 1677 }]
        ((oneGoodRow.filter (fun r => matchTimePattern r.perf.data)).map
          normalizeRow) := by
  refine ⟨C4_parse.1 "27:57", C4_parse.2.2.1 "1:02:03".data _ _ _ (by decide),
    C4_parse.2.2.2 true oneGoodRow
      [{ date := "01 Jan 24", venue := "Parliament Hill", country := "GB",
          perfSeconds := 1677 }] rfl⟩

/-- C5: for every group, the stored counts are, threshold by threshold in
ascending order, the number of group members strictly below `t * 60`
seconds; the counts are monotonically non-decreasing along the ThresholdSet;
and the stored fastest time is the minimum `time_seconds` of the group
(a lower bound on every member, attained by some member). -/
theorem C5_aggregation (df : List NormRow) (k : String × String × String)
    (hk : k ∈ groupKeys df) :
    (aggRowOf (dynamicThresholdMinutes df) df k).counts =
      (dynamicThresholdMinutes df).map
        (fun t => ((membersOf df k).filter
          (fun r => decide (r.perfSeconds < t * 60))).length) ∧
    (aggRowOf (dynamicThresholdMinutes df) df k).counts.Pairwise (· ≤ ·) ∧
    (∀ r ∈ membersOf df k,
      (aggRowOf (dynamicThresholdMinutes df) df k).fastest ≤ r.perfSeconds) ∧
    (aggRowOf (dynamicThresholdMinutes df) df k).fastest ∈
      (membersOf df k).map NormRow.perfSeconds := by
  refine ⟨?_, ?_, ?_, ?_⟩
  · simp only [aggRowOf]
    refine List.map_eq_map_iff.mpr fun t _ => ?_
    rw [show countUnder (membersOf df k) t =
      List.countP (fun r => decide (r.perfSeconds < t * 60)) (membersOf df k) from rfl]
    exact List.countP_eq_length_filter _ _
  · simp only [aggRowOf]
    rw [List.pairwise_map]
    exact (dynThresholds_pairwise_lt df).imp
      (fun hab => countUnder_mono (membersOf df k) _ _ (Nat.le_of_lt hab))
  · simp only [aggRowOf]
    intro r hr
    exact listMin_le _ _ (List.mem_map.mpr ⟨r, hr, rfl⟩)
  · simp only [aggRowOf]
    exact listMin_mem _
      (fun hc => membersOf_ne_nil df k hk (List.map_eq_nil_iff.mp hc))

/-- Witness for C5 at the worked scenario batch. -/
theorem C5_witness :
    ("01 Jan 24", "Parliament Hill", "GB") ∈ groupKeys sampleBatch ∧
      (aggRowOf (dynamicThresholdMinutes sampleBatch) sampleBatch
        ("01 Jan 24", "Parliament Hill", "GB")).counts.Pairwise (· ≤ ·) := by
  have hk : ("01 Jan 24", "Parliament Hill", "GB") ∈ groupKeys sampleBatch := by decide
  exact ⟨hk, (C5_aggregation sampleBatch _ hk).2.1⟩

/-- C6: for every accepted time string, formatting the parsed seconds with
the display formatter and re-parsing yields the same numeric value. -/
theorem C6_roundtrip (s : String) (n : Nat) (h : parse_time s = some n) :
    parse_time ⟨format_seconds_to_display n⟩ = parse_time s := by
  unfold parse_time at h ⊢
  by_cases hm : matchTimePattern s.data = true
  · rw [if_pos hm] at h ⊢
    injection h with h2
    rw [if_pos (show matchTimePattern (String.data ⟨format_seconds_to_display n⟩) = true
      from matchTimePattern_format n)]
    show some (perf_seconds (format_seconds_to_display n)) = _
    rw [perf_seconds_format n, ← h2]
  · rw [if_neg hm] at h
    simp at h

/-- Witness for C6 on a concrete accepted string. -/
theorem C6_witness :
    parse_time "5:09" = some 309 ∧
      parse_time ⟨format_seconds_to_display 309⟩ = parse_time "5:09" := by
  have h : parse_time "5:09" = some 309 := by decide
  exact ⟨h, C6_roundtrip "5:09" 309 h⟩

/-- C7: a non-empty batch in which every result has the same `time_seconds`
value `v` produces the single-boundary ThresholdSet `[v / 60 + 1]` with no
error, and every group counts all of its members at that boundary. -/
theorem C7_degenerate (df : List NormRow) (v : Nat) (h : df ≠ [])
    (hall : ∀ r ∈ df, r.perfSeconds = v) :
    dynamicThresholdMinutes df = [v / 60 + 1] ∧
    ∀ k ∈ groupKeys df,
      countUnder (membersOf df k) (v / 60 + 1) = (membersOf df k).length ∧
        1 ≤ countUnder (membersOf df k) (v / 60 + 1) := by
  have hminv : globalMinSeconds df = v := by
    obtain ⟨r, hr, hre⟩ := List.mem_map.mp (listMin_mem (df.map NormRow.perfSeconds)
      (fun hc => h (List.map_eq_nil_iff.mp hc)))
    rw [show globalMinSeconds df = listMin (df.map NormRow.perfSeconds) from rfl, ← hre]
    exact hall r hr
  have hmaxv : globalMaxSeconds df = v := by
    obtain ⟨r, hr, hre⟩ := List.mem_map.mp (listMax_mem (df.map NormRow.perfSeconds)
      (fun hc => h (List.map_eq_nil_iff.mp hc)))
    rw [show globalMaxSeconds df = listMax (df.map NormRow.perfSeconds) from rfl, ← hre]
    exact hall r hr
  have hsv : startMinuteThreshold df = v / 60 + 1 := by
    rw [show startMinuteThreshold df = globalMinSeconds df / 60 + 1 from rfl, hminv]
  have hev : endMinuteThreshold df = v / 60 + 1 := by
    rw [show endMinuteThreshold df =
      max (startMinuteThreshold df) ((globalMaxSeconds df + 59) / 60) from rfl, hsv, hmaxv]
    omega
  have hthr : dynamicThresholdMinutes df = [v / 60 + 1] := by
    rw [dynamicThresholds_eq]
    unfold thresholdRangeList
    rw [hsv, hev, show v / 60 + 1 + 1 - (v / 60 + 1) = 1 by omega, List.range'_one]
  refine ⟨hthr, ?_⟩
  intro k hk
  have hcnt : countUnder (membersOf df k) (v / 60 + 1) = (membersOf df k).length := by
    rw [countUnder_eq_length_iff]
    intro r hr
    have h2 := hall r (membersOf_sub df k r hr)
    omega
  have hne := membersOf_ne_nil df k hk
  have hlen : 1 ≤ (membersOf df k).length := List.length_pos.mpr hne
  omega

/-- Witness for C7 at the constant batch. -/
theorem C7_witness :
    constantBatch ≠ [] ∧ (∀ r ∈ constantBatch, r.perfSeconds = 3600) ∧
      dynamicThresholdMinutes constantBatch = [3600 / 60 + 1] := by
  have h1 : constantBatch ≠ [] := by simp [constantBatch]
  have h2 : ∀ r ∈ constantBatch, r.perfSeconds = 3600 := by decide
  exact ⟨h1, h2, (C7_degenerate constantBatch 3600 h1 h2).1⟩

/-- C8: an empty normalized set (input empty or all rows dropped by the
time filter) yields `ok []` from normalization with no error, and the
metrics stage returns the explicit empty table carrying the columns
`Date, Venue, Country, Fastest`. -/
theorem C8_empty_result (hasDate : Bool) (rows : List RawRow)
    (h : rows.filter (fun r => matchTimePattern r.perf.data) = []) :
    get_ranking_data hasDate rows = Except.ok [] ∧
    calculate_performance_metrics [] =
      { header := ["Date", "Venue", "Country", "Fastest"], rows := [] } := by
  constructor
  · simp [get_ranking_data, h]
  · rfl

/-- Witness for C8 at a batch with no parseable time. -/
theorem C8_witness :
    unparseableRows.filter (fun r => matchTimePattern r.perf.data) = [] ∧
      get_ranking_data true unparseableRows = Except.ok [] := by
  have h : unparseableRows.filter (fun r => matchTimePattern r.perf.data) = [] := by
    decide
  exact ⟨h, (C8_empty_result true unparseableRows h).1⟩

/-- C9: when the `Date` column is absent from the schema and the filtered
batch is non-empty, normalization fails the whole batch with the malformed
input error rather than skipping rows or proceeding. -/
theorem C9_missing_date_fatal (rows : List RawRow)
    (h : rows.filter (fun r => matchTimePattern r.perf.data) ≠ []) :
    get_ranking_data false rows =
      Except.error
        "The Date column was not found after data processing. Cannot group results." := by
  simp only [get_ranking_data]
  rw [if_neg (by simp [List.isEmpty_iff, h])]
  rfl

/-- Witness for C9 at a batch with one parseable time. -/
theorem C9_witness :
    oneGoodRow.filter (fun r => matchTimePattern r.perf.data) ≠ [] ∧
      get_ranking_data false oneGoodRow =
        Except.error
          "The Date column was not found after data processing. Cannot group results." := by
  have h : oneGoodRow.filter (fun r => matchTimePattern r.perf.data) ≠ [] := by decide
  exact ⟨h, C9_missing_date_fatal oneGoodRow h⟩

/-- C10: for every non-empty batch the clamped range
`list(range(start, end + 1))` is itself non-empty, so the `or` fallback
`[ceil(global_min_seconds / 60)]` is unreachable and the ThresholdSet is the
range expression, never the fallback. -/
theorem C10_no_fallback (df : List NormRow) (_h : df ≠ []) :
    thresholdRangeList df ≠ [] ∧
      dynamicThresholdMinutes df = thresholdRangeList df :=
  ⟨thresholdRange_ne_nil df, dynamicThresholds_eq df⟩

/-- Witness for C10 at the worked scenario batch. -/
theorem C10_witness :
    sampleBatch ≠ [] ∧ thresholdRangeList sampleBatch ≠ [] := by
  have h : sampleBatch ≠ [] := by simp [sampleBatch]
  exact ⟨h, (C10_no_fallback sampleBatch h).1⟩

end FastestRaces
